import Mathlib

/-!
Verification development for the `nya_interview` question-tree engine
(`src/nya_interview/_base.py`).

The Python core is embedded shallowly as a fuel-indexed interpreter over an
explicit event stream:

* `Val` models the dynamic Python values that flow through the engine
  (answers, tuples of collected items, the name-to-answer dict an Interview
  returns).  Sequences are encoded with cons cells so that decidable
  equality is structural and computable.
* `Event` models one interaction with the external renderer: a line that
  parses to an answer, or `KeyboardInterrupt` (Ctrl+C) or `EOFError`
  (Ctrl+D).  An exhausted stream behaves like `EOFError`, as a closed stdin
  does in Python.
* `Transformation` models `Transformation__.KeepIf` / `Transformation__.ValidIf`.
  The predicates receive the enclosing interview's in-progress `_answers`
  mapping (the only interview state the repository's predicates read) and,
  for validation, the produced answer; the unused `q` argument of the
  Python signature is not modelled.
* `QuestionABC` / `QCore` model the question tree, with the mutable
  per-instance fields (`transformations`, `is_skipped`, and for Interview
  `questions`, `_answers`, `parent_interview`) carried as data and threaded
  state-passing style: every evaluation returns the updated question, the
  remaining stream, the messages printed via `print_label`, and an outcome.
* `step` is the interpreter: one mutually recursive evaluator over a `Call`
  descriptor, structurally recursive on a fuel argument (`Outcome.fuelOut`
  means the fuel ran out, i.e. the Python program is still running).
-/

/-- Dynamic values. Python tuples and dicts are encoded with cons cells
(`vnil` / `vcons`, dict entries via `ventry`) so that equality is
structurally decidable and computable. -/
inductive Val where
  | vnone
  | vint (n : Int)
  | vstr (s : String)
  | vbool (b : Bool)
  | vnil
  | vcons (head tail : Val)
  | ventry (key : String) (value : Val)
deriving DecidableEq, Repr

/-- Encode a Lean list of values as a Python tuple value. -/
def Val.ofList : List Val → Val
  | [] => .vnil
  | v :: vs => .vcons v (Val.ofList vs)

/-- Encode an association list as a Python dict value (insertion order kept). -/
def Val.ofDict : List (String × Val) → Val
  | [] => .vnil
  | (k, v) :: r => .vcons (.ventry k v) (Val.ofDict r)

/-- The keys of an encoded dict value, in order. -/
def Val.dictKeys : Val → List String
  | .vcons (.ventry k _) t => k :: Val.dictKeys t
  | _ => []

/-- One interaction with the external renderer: a raw line that parsed to an
answer, or one of the two abort channels (`KeyboardInterrupt` = Ctrl+C,
`EOFError` = Ctrl+D). -/
inductive Event where
  | ans (v : Val)
  | ctrlC
  | ctrlD
deriving DecidableEq, Repr

/-- Which of the two Python abort exceptions originated a signal. -/
inductive Cause where
  | ctrlC
  | ctrlD
deriving DecidableEq, Repr

/-- Exceptions that propagate through the engine: `raw` is a bare
`KeyboardInterrupt`/`EOFError` from the renderer, `userExit` is
`Interview.UserExitException` wrapping it (`originates_from_ctrl_c` /
`originates_from_ctrl_d` is recoverable from the cause). -/
inductive Exc where
  | raw (c : Cause)
  | userExit (c : Cause)
deriving DecidableEq, Repr

/-- The outcome of evaluating a question: a value, a propagating exception,
or fuel exhaustion (the Python program is still running). -/
inductive Outcome where
  | ok (v : Val)
  | exc (e : Exc)
  | fuelOut
deriving DecidableEq, Repr

/-- `BaseTransformation` subclasses: `Transformation__.KeepIf` (a `transform`
that may set `is_skipped`) and `Transformation__.ValidIf` (a `validate`
predicate plus its optional invalid message). Predicates receive the
enclosing interview's in-progress answers mapping. -/
inductive Transformation where
  | keepIf (predicate : List (String × Val) → Bool)
  | validIf (predicate : List (String × Val) → Val → Bool) (msg : Option String)

mutual
/-- `QuestionABC`: a question node together with its mutable instance state
(`transformations` list and `is_skipped` flag). -/
inductive QuestionABC where
  | mk (core : QCore) (transformations : List Transformation) (is_skipped : Bool)

/-- The concrete question classes.  `leaf` stands for an external renderer
leaf (e.g. `Question__.Str`): its `_ask` consumes one event from the stream.
`label` is `Question__.Label`. `interview` is `Interview`, carrying its
`questions` dict, its transient `_answers` field (`none` when not in
progress) and whether `parent_interview` is currently set.  `dynamic`,
`postConvert` and `tupleQ` are `Question__.Dynamic`, `Question__.PostConvert`
and `Question__.Tuple` with the fields of the source. -/
inductive QCore where
  | leaf
  | label (text : String)
  | interview (questions : List (String × QuestionABC))
      (answersField : Option (List (String × Val))) (parentSet : Bool)
  | dynamic (make_question : List (String × Val) → QuestionABC)
  | postConvert (inner_question : QuestionABC) (post_converter : Val → Val)
  | tupleQ (make_item_question : List Val → QuestionABC)
      (end_condition : Val → Bool)
      (end_on_ctrl_d : Bool) (end_on_ctrl_c : Bool) (ensure_unique : Bool)
      (min_items : Nat) (max_items : Nat)
end

/-- The `core` of a question node. -/
def QuestionABC.core : QuestionABC → QCore
  | .mk c _ _ => c

/-- The `transformations` list of a question node. -/
def QuestionABC.transformations : QuestionABC → List Transformation
  | .mk _ ts _ => ts

/-- The `is_skipped` flag of a question node. -/
def QuestionABC.is_skipped : QuestionABC → Bool
  | .mk _ _ sk => sk

/-- `QuestionABC.skip`: set `is_skipped` to `True` (chaining helper). -/
def QuestionABC.skip : QuestionABC → QuestionABC
  | .mk c ts _ => .mk c ts true

/-- The `questions` dict of an Interview node (empty for other questions). -/
def QuestionABC.questions : QuestionABC → List (String × QuestionABC)
  | .mk (.interview qs _ _) _ _ => qs
  | _ => []

/-- The transient `_answers` field of an Interview node. -/
def QuestionABC.answersField : QuestionABC → Option (List (String × Val))
  | .mk (.interview _ a _) _ _ => a
  | _ => none

/-- Whether the `parent_interview` back-reference of an Interview node is set. -/
def QuestionABC.parentSet : QuestionABC → Bool
  | .mk (.interview _ _ p) _ _ => p
  | _ => false

/-- `BaseTransformation.transform` dispatch: `KeepIf.transform` sets
`is_skipped` when its predicate is false and returns the question;
`ValidIf` inherits the base identity `transform`. -/
def Transformation.transform (ivAnswers : List (String × Val))
    (t : Transformation) (q : QuestionABC) : QuestionABC :=
  match t with
  | .keepIf p => if p ivAnswers then q else q.skip
  | .validIf _ _ => q

/-- `BaseTransformation.validate` dispatch: `ValidIf.validate` evaluates its
predicate; `KeepIf` inherits the base `validate`, which always accepts. -/
def Transformation.validate (ivAnswers : List (String × Val))
    (t : Transformation) (a : Val) : Bool :=
  match t with
  | .keepIf _ => true
  | .validIf p _ => p ivAnswers a

/-- `validate__invalid_message` dispatch: `ValidIf` returns its `msg`;
`KeepIf` inherits the base default message. -/
def Transformation.validate__invalid_message : Transformation → Option String
  | .keepIf _ => some "Invalid value, try again"
  | .validIf _ msg => msg

/-- The transform loop of `Interview._ask`:
`for transformation in question.transformations.copy(): question = transformation.transform(self, question)`. -/
def applyTransformations (ivAnswers : List (String × Val))
    (ts : List Transformation) (q : QuestionABC) : QuestionABC :=
  ts.foldl (fun q t => Transformation.transform ivAnswers t q) q

/-- The `all(key(trans) for trans in self.transformations)` check of
`_ask_with_validation`: evaluate each `validate` in attachment order,
short-circuiting at the first failure; return whether all accepted together
with the messages printed (the first failing transformation's
`validate__invalid_message`, when not `None`). -/
def runValidation (ivAnswers : List (String × Val))
    (ts : List Transformation) (a : Val) : Bool × List String :=
  match ts with
  | [] => (true, [])
  | t :: rest =>
    if Transformation.validate ivAnswers t a then runValidation ivAnswers rest a
    else
      (false,
        match Transformation.validate__invalid_message t with
        | some m => [m]
        | none => [])

/-- `Question__.Tuple.get_error_text__too_few_items` (markup stripped). -/
def get_error_text__too_few_items (min_items : Nat) : String :=
  "You must input at least " ++ toString min_items ++ " item(s)"

/-- `Question__.Tuple.get_error_text__not_unique` (markup stripped). -/
def get_error_text__not_unique : String :=
  "You already provided this item, unique values are requested."

/-- Result of evaluating one call: the outcome, the updated question
(mutations to instance state persist, also when an exception propagates),
the remaining event stream, and the messages printed via `print_label`. -/
structure AskRes where
  outcome : Outcome
  question : QuestionABC
  stream : List Event
  prints : List String

/-- Call descriptors for the interpreter.  `ask` is a `_ask` dispatch
(`ivIsNone` records whether the interview argument is `None`, which only
happens for the top-level `Interview.ask()`); `askWithValidation` is
`_ask_with_validation`; `interviewLoop` is the child loop of
`Interview._ask` (with the shell fields of the interview node, the flag to
store into `parent_interview`, the processed and pending children and the
accumulated `_answers`); `tupleLoop` is the `while True` loop of
`Question__.Tuple._ask` (with the node's fields, its shell, the enclosing
interview's answers and the collected items `lst`). -/
inductive Call where
  | ask (q : QuestionABC) (ivIsNone : Bool) (ivAnswers : List (String × Val))
  | askWithValidation (q : QuestionABC) (ivAnswers : List (String × Val))
  | interviewLoop (shellTs : List Transformation) (shellSk : Bool) (parentF : Bool)
      (done : List (String × QuestionABC)) (pending : List (String × QuestionABC))
      (answers : List (String × Val))
  | tupleLoop (make_item_question : List Val → QuestionABC)
      (end_condition : Val → Bool)
      (end_on_ctrl_d : Bool) (end_on_ctrl_c : Bool) (ensure_unique : Bool)
      (min_items : Nat) (max_items : Nat)
      (shellTs : List Transformation) (shellSk : Bool)
      (ivAnswers : List (String × Val)) (lst : List Val)

/-- The question a call is currently evaluating (used to report state when
the fuel runs out mid-call). -/
def Call.currentQuestion : Call → QuestionABC
  | .ask q _ _ => q
  | .askWithValidation q _ => q
  | .interviewLoop ts sk pF done pending acc =>
      .mk (.interview (done ++ pending) (some acc) pF) ts sk
  | .tupleLoop mkq endc eod eoc uniq mi ma ts sk _ _ =>
      .mk (.tupleQ mkq endc eod eoc uniq mi ma) ts sk

/-- The interpreter.  Structurally recursive on fuel; `Outcome.fuelOut`
means the source program is still running after that many steps.

`ask` cases mirror each `_ask` of the source: a `leaf` obtains one raw line
from the renderer (raising `EOFError` when the stream is exhausted, as a
closed stdin does); `label` prints its text, sets `is_skipped` and returns
`None`; `interview` is `Interview._ask` (set `parent_interview`, reset
`_answers`, run the child loop); `dynamic` and `postConvert` call
`invoke_subquestion` on the freshly made / inner question (propagating the
sub-question's skip flag on normal return only, as the source line runs
only when `_ask_with_validation` returned); `tupleQ` enters the collection
loop with `lst = []`.

`askWithValidation` mirrors `_ask_with_validation`: `_ask`, wrapping a raw
`KeyboardInterrupt`/`EOFError` into `UserExitException`, then the
validation loop, re-asking until every transformation accepts.

`interviewLoop` mirrors the body of `Interview._ask`: apply the child's
transformations, skip without asking when `is_skipped`, otherwise
`_ask_with_validation`, drop the result when the child came back skipped,
else record it; at the end return a snapshot of `_answers` and clear
`_answers` and `parent_interview`; an escaping exception leaves both set
(the `try`/`finally` of the source wraps only the `return`).

`tupleLoop` mirrors `Question__.Tuple._ask`: stop at `max_items`; ask the
item question made from the items so far; on the end condition stop, unless
fewer than `min_items` were collected, in which case print the too-few
message and continue; on a duplicate under `ensure_unique` print the
not-unique message and continue without appending; otherwise append; a
`UserExitException` from the item ends the loop (still subject to
`min_items`) when its channel's `end_on_*` flag is set, and re-raises
otherwise. -/
def step : Nat → Call → List Event → AskRes
  | 0, c, s => ⟨.fuelOut, c.currentQuestion, s, []⟩
  | fuel + 1, .ask (.mk core ts sk) ivIsNone ivAnswers, s =>
    match core with
    | .leaf =>
      match s with
      | [] => ⟨.exc (.raw .ctrlD), .mk .leaf ts sk, [], []⟩
      | .ans v :: rest => ⟨.ok v, .mk .leaf ts sk, rest, []⟩
      | .ctrlC :: rest => ⟨.exc (.raw .ctrlC), .mk .leaf ts sk, rest, []⟩
      | .ctrlD :: rest => ⟨.exc (.raw .ctrlD), .mk .leaf ts sk, rest, []⟩
    | .label text => ⟨.ok .vnone, .mk (.label text) ts true, s, [text]⟩
    | .interview qs _ _ =>
      step fuel (.interviewLoop ts sk (!ivIsNone) [] qs []) s
    | .dynamic f =>
      let r := step fuel (.askWithValidation (f ivAnswers) ivAnswers) s
      match r.outcome with
      | .ok a =>
          ⟨.ok a, .mk (.dynamic f) ts (sk || r.question.is_skipped), r.stream, r.prints⟩
      | o => ⟨o, .mk (.dynamic f) ts sk, r.stream, r.prints⟩
    | .postConvert inner conv =>
      let r := step fuel (.askWithValidation inner ivAnswers) s
      match r.outcome with
      | .ok a =>
          ⟨.ok (conv a), .mk (.postConvert r.question conv) ts (sk || r.question.is_skipped),
            r.stream, r.prints⟩
      | o => ⟨o, .mk (.postConvert r.question conv) ts sk, r.stream, r.prints⟩
    | .tupleQ mkq endc eod eoc uniq mi ma =>
      step fuel (.tupleLoop mkq endc eod eoc uniq mi ma ts sk ivAnswers []) s
  | fuel + 1, .askWithValidation q ivAnswers, s =>
    let r := step fuel (.ask q false ivAnswers) s
    match r.outcome with
    | .exc (.raw c) => ⟨.exc (.userExit c), r.question, r.stream, r.prints⟩
    | .exc (.userExit c) => ⟨.exc (.userExit c), r.question, r.stream, r.prints⟩
    | .fuelOut => ⟨.fuelOut, r.question, r.stream, r.prints⟩
    | .ok a =>
      let v := runValidation ivAnswers r.question.transformations a
      if v.1 then ⟨.ok a, r.question, r.stream, r.prints ++ v.2⟩
      else
        let r2 := step fuel (.askWithValidation r.question ivAnswers) r.stream
        ⟨r2.outcome, r2.question, r2.stream, r.prints ++ v.2 ++ r2.prints⟩
  | fuel + 1, .interviewLoop shellTs shellSk parentF done pending acc, s =>
    match pending with
    | [] =>
      ⟨.ok (Val.ofDict acc), .mk (.interview done none false) shellTs shellSk, s, []⟩
    | (name, q) :: rest =>
      let q1 := applyTransformations acc q.transformations q
      if q1.is_skipped then
        step fuel (.interviewLoop shellTs shellSk parentF (done ++ [(name, q1)]) rest acc) s
      else
        let r := step fuel (.askWithValidation q1 acc) s
        match r.outcome with
        | .ok a =>
          let r2 := step fuel
            (.interviewLoop shellTs shellSk parentF (done ++ [(name, r.question)]) rest
              (if r.question.is_skipped then acc else acc ++ [(name, a)])) r.stream
          ⟨r2.outcome, r2.question, r2.stream, r.prints ++ r2.prints⟩
        | o =>
          ⟨o, .mk (.interview (done ++ [(name, r.question)] ++ rest) (some acc) parentF)
              shellTs shellSk, r.stream, r.prints⟩
  | fuel + 1, .tupleLoop mkq endc eod eoc uniq mi ma shellTs shellSk ivAnswers lst, s =>
    if ma ≤ lst.length then
      ⟨.ok (Val.ofList lst), .mk (.tupleQ mkq endc eod eoc uniq mi ma) shellTs shellSk, s, []⟩
    else
      let r := step fuel (.askWithValidation (mkq lst) ivAnswers) s
      match r.outcome with
      | .ok item =>
        let sk' := shellSk || r.question.is_skipped
        if endc item then
          if lst.length < mi then
            let r2 := step fuel
              (.tupleLoop mkq endc eod eoc uniq mi ma shellTs sk' ivAnswers lst) r.stream
            ⟨r2.outcome, r2.question, r2.stream,
              r.prints ++ [get_error_text__too_few_items mi] ++ r2.prints⟩
          else
            ⟨.ok (Val.ofList lst), .mk (.tupleQ mkq endc eod eoc uniq mi ma) shellTs sk',
              r.stream, r.prints⟩
        else if uniq ∧ item ∈ lst then
          let r2 := step fuel
            (.tupleLoop mkq endc eod eoc uniq mi ma shellTs sk' ivAnswers lst) r.stream
          ⟨r2.outcome, r2.question, r2.stream,
            r.prints ++ [get_error_text__not_unique] ++ r2.prints⟩
        else
          let r2 := step fuel
            (.tupleLoop mkq endc eod eoc uniq mi ma shellTs sk' ivAnswers (lst ++ [item]))
            r.stream
          ⟨r2.outcome, r2.question, r2.stream, r.prints ++ r2.prints⟩
      | .exc (.userExit c) =>
        if (eod ∧ c = .ctrlD) ∨ (eoc ∧ c = .ctrlC) then
          if lst.length < mi then
            let r2 := step fuel
              (.tupleLoop mkq endc eod eoc uniq mi ma shellTs shellSk ivAnswers lst) r.stream
            ⟨r2.outcome, r2.question, r2.stream,
              r.prints ++ [get_error_text__too_few_items mi] ++ r2.prints⟩
          else
            ⟨.ok (Val.ofList lst), .mk (.tupleQ mkq endc eod eoc uniq mi ma) shellTs shellSk,
              r.stream, r.prints⟩
        else
          ⟨.exc (.userExit c), .mk (.tupleQ mkq endc eod eoc uniq mi ma) shellTs shellSk,
            r.stream, r.prints⟩
      | o =>
        ⟨o, .mk (.tupleQ mkq endc eod eoc uniq mi ma) shellTs shellSk, r.stream, r.prints⟩

/-- `QuestionABC._ask_with_validation`, as a fuel-indexed run. -/
def QuestionABC._ask_with_validation (fuel : Nat) (q : QuestionABC)
    (ivAnswers : List (String × Val)) (s : List Event) : AskRes :=
  step fuel (.askWithValidation q ivAnswers) s

/-- `Interview.ask`: `self._ask(None)`, as a fuel-indexed run. -/
def Interview.ask (fuel : Nat) (q : QuestionABC) (s : List Event) : AskRes :=
  step fuel (.ask q true []) s

/-- `Interview.add_questions`: compute the batch keys already occupied in
`self.questions`; raise `KeyOccupiedError` (first component nonempty) before
touching the dict when any collide, otherwise `self.questions.update(...)`.
The second component is the `questions` dict after the call. -/
def Interview.add_questions (existing batch : List (String × QuestionABC)) :
    List String × List (String × QuestionABC) :=
  let occupied_keys := (batch.map Prod.fst).filter fun k => (existing.map Prod.fst).contains k
  if occupied_keys.isEmpty then ([], existing ++ batch)
  else (occupied_keys, existing)

/-- One record of the child loop of `Interview._ask` per pending child: the
child's transformations were applied without marking it skipped, its
`_ask_with_validation` produced an answer without marking it skipped either,
and the answer was stored under the child's name before moving on (threading
the remaining event stream and the growing `_answers` mapping). -/
inductive AnswersChain :
    Nat → List (String × QuestionABC) → List (String × Val) → List Event →
    List (String × Val) → List Event → Prop where
  | nil (fuel : Nat) (acc : List (String × Val)) (s : List Event) :
      AnswersChain fuel [] acc s [] s
  | cons (fuel : Nat) (name : String) (q : QuestionABC)
      (rest : List (String × QuestionABC)) (acc : List (String × Val))
      (s : List Event) (a : Val) (ans' : List (String × Val)) (s' : List Event) :
      (applyTransformations acc q.transformations q).is_skipped = false →
      (step fuel (.askWithValidation (applyTransformations acc q.transformations q) acc) s).outcome
        = .ok a →
      (step fuel (.askWithValidation (applyTransformations acc q.transformations q) acc) s).question.is_skipped
        = false →
      AnswersChain fuel rest (acc ++ [(name, a)])
        (step fuel (.askWithValidation (applyTransformations acc q.transformations q) acc) s).stream
        ans' s' →
      AnswersChain (fuel + 1) ((name, q) :: rest) acc s ((name, a) :: ans') s'

/-- A bare external-renderer leaf question with no transformations. -/
def exLeaf : QuestionABC := .mk .leaf [] false

/-- An interview with a single leaf child guarded by an always-false keep-if. -/
def exIvSkip : QuestionABC :=
  .mk (.interview [("a", .mk .leaf [.keepIf (fun _ => false)] false)] none false) [] false

/-- An interview whose only child is a nested interview with one leaf child. -/
def exIvNest : QuestionABC :=
  .mk (.interview [("inner", .mk (.interview [("x", exLeaf)] none false) [] false)]
    none false) [] false

/-- The stream of answers k, k - 1, ..., 1, 0, in that order. -/
def countdownStream : Nat → List Event
  | 0 => [.ans (.vint 0)]
  | k + 1 => .ans (.vint (k + 1)) :: countdownStream k

/-- A leaf question with a single attached ValidIf accepting only the answer
0, with rejection message "nope". -/
def exValidQ : QuestionABC :=
  .mk .leaf [.validIf (fun _ v => v == Val.vint 0) (some "nope")] false

/-- A Tuple question with `ensure_unique=True`, end condition "item equals
0", and otherwise default flags. -/
def exUniqTuple : QuestionABC :=
  .mk (.tupleQ (fun _ => exLeaf) (fun v => v == Val.vint 0) true false true 0 2147483647)
    [] false

/-- A Tuple question with all flags at their defaults (`end_on_ctrl_d=True`,
`end_on_ctrl_c=False`, never-true end condition). -/
def exTupDefault : QuestionABC :=
  .mk (.tupleQ (fun _ => exLeaf) (fun _ => false) true false false 0 2147483647) [] false

/-- An interview whose only child is a default-flag Tuple question. -/
def exIvTup : QuestionABC := .mk (.interview [("t", exTupDefault)] none false) [] false

/-- The interview of C8's concrete run: the middle child carries an
always-false keep-if; if it were asked it would consume the second answer
and the third child would then hit end-of-input and abort the run. -/
def exIvC8 : QuestionABC :=
  .mk (.interview [("a", exLeaf), ("b", .mk .leaf [.keepIf (fun _ => false)] false),
    ("c", exLeaf)] none false) [] false

/-- An interview whose first child is already marked skipped. -/
def exIvPre : QuestionABC :=
  .mk (.interview [("a", .mk .leaf [] true), ("b", exLeaf)] none false) [] false

/-- The Tuple question of C3: `min_items=2`, end condition "item equals 0",
`ensure_unique=False`, default abort flags. -/
def exMinTuple : QuestionABC :=
  .mk (.tupleQ (fun _ => exLeaf) (fun v => v == Val.vint 0) true false false 2 2147483647)
    [] false

/-- Setting the skip flag makes `is_skipped` true. -/
theorem QuestionABC.skip_sets_flag (q : QuestionABC) : q.skip.is_skipped = true := by
  cases q with
  | mk c ts sk => rfl

/-- A single `transform` never resets `is_skipped`. -/
theorem Transformation.transform_skip_mono (ivA : List (String × Val))
    (t : Transformation) (q : QuestionABC) (h : q.is_skipped = true) :
    (Transformation.transform ivA t q).is_skipped = true := by
  cases t with
  | keepIf p =>
    simp only [Transformation.transform]
    split
    · exact h
    · exact QuestionABC.skip_sets_flag q
  | validIf p msg => exact h

/-- The transform pipeline of `Interview._ask` never resets `is_skipped`. -/
theorem applyTransformations_skip_mono (ivA : List (String × Val))
    (ts : List Transformation) (q : QuestionABC) (h : q.is_skipped = true) :
    (applyTransformations ivA ts q).is_skipped = true := by
  induction ts generalizing q with
  | nil => exact h
  | cons t rest ih =>
    exact ih _ (Transformation.transform_skip_mono ivA t q h)

/-- Skip flags are monotone across the whole interpreter: no evaluation step
resets a set `is_skipped` flag of the question being evaluated. -/
theorem step_skip_mono (fuel : Nat) : ∀ (c : Call) (s : List Event),
    c.currentQuestion.is_skipped = true →
    (step fuel c s).question.is_skipped = true := by
  induction fuel with
  | zero => intro c s h; simpa [step] using h
  | succ n ih =>
    intro c s h
    match c with
    | .ask (.mk core ts sk) ivN ivA =>
      have hsk : sk = true := by simpa [Call.currentQuestion, QuestionABC.is_skipped] using h
      subst hsk
      cases core with
      | leaf =>
        cases s with
        | nil => simp [step, QuestionABC.is_skipped]
        | cons e rest => cases e <;> simp [step, QuestionABC.is_skipped]
      | label text => simp [step, QuestionABC.is_skipped]
      | interview qs aF pF =>
        simp only [step]
        exact ih _ s rfl
      | dynamic f =>
        simp only [step]
        rcases hout : (step n (.askWithValidation (f ivA) ivA) s).outcome with v | e
        · simp [hout, QuestionABC.is_skipped]
        · simp [hout, QuestionABC.is_skipped]
        · simp [hout, QuestionABC.is_skipped]
      | postConvert inner conv =>
        simp only [step]
        rcases hout : (step n (.askWithValidation inner ivA) s).outcome with v | e
        · simp [hout, QuestionABC.is_skipped]
        · simp [hout, QuestionABC.is_skipped]
        · simp [hout, QuestionABC.is_skipped]
      | tupleQ mkq endc eod eoc uniq mi ma =>
        simp only [step]
        exact ih _ s rfl
    | .askWithValidation q ivA =>
      have hq : q.is_skipped = true := by simpa [Call.currentQuestion] using h
      have hr : (step n (.ask q false ivA) s).question.is_skipped = true :=
        ih _ s (by simpa [Call.currentQuestion] using hq)
      simp only [step]
      rcases hout : (step n (.ask q false ivA) s).outcome with v | e
      · simp only [hout]
        split
        · simpa using hr
        · exact ih _ _ (by simpa [Call.currentQuestion] using hr)
      · cases e <;> simp [hout, hr]
      · simp [hout, hr]
    | .interviewLoop shellTs shellSk pF done pending acc =>
      have hsk : shellSk = true := by
        simpa [Call.currentQuestion, QuestionABC.is_skipped] using h
      subst hsk
      cases pending with
      | nil => simp [step, QuestionABC.is_skipped]
      | cons p rest =>
        obtain ⟨name, q⟩ := p
        simp only [step]
        split
        · exact ih _ s rfl
        · rcases hout : (step n (.askWithValidation
              (applyTransformations acc q.transformations q) acc) s).outcome with v | e
          · simp only [hout]
            exact ih _ _ rfl
          · simp [hout, QuestionABC.is_skipped]
          · simp [hout, QuestionABC.is_skipped]
    | .tupleLoop mkq endc eod eoc uniq mi ma shellTs shellSk ivA lst =>
      have hsk : shellSk = true := by
        simpa [Call.currentQuestion, QuestionABC.is_skipped] using h
      subst hsk
      simp only [step]
      split
      · simp [QuestionABC.is_skipped]
      · rcases hout : (step n (.askWithValidation (mkq lst) ivA) s).outcome with v | e
        · simp only [hout]
          split
          · split
            · exact ih _ _ rfl
            · simp [QuestionABC.is_skipped]
          · split
            · exact ih _ _ rfl
            · exact ih _ _ rfl
        · cases e with
          | raw c => simp [hout, QuestionABC.is_skipped]
          | userExit c =>
            simp only [hout]
            split
            · split
              · exact ih _ _ rfl
              · simp [QuestionABC.is_skipped]
            · simp [QuestionABC.is_skipped]
        · simp [hout, QuestionABC.is_skipped]

/-- State shape of the child loop of `Interview._ask`: when the loop returns
normally, the `finally` of the source has cleared `_answers` and
`parent_interview`; when an exception propagates out of a child, the loop is
abandoned before that cleanup, so `_answers` (holding the partial answers)
and `parent_interview` keep the values they had. -/
theorem interviewLoop_state (fuel : Nat) :
    ∀ (shellTs : List Transformation) (shellSk pF : Bool)
      (done pending : List (String × QuestionABC))
      (acc : List (String × Val)) (s : List Event),
    (∀ v, (step fuel (.interviewLoop shellTs shellSk pF done pending acc) s).outcome = .ok v →
      ∃ qs', (step fuel (.interviewLoop shellTs shellSk pF done pending acc) s).question
        = .mk (.interview qs' none false) shellTs shellSk) ∧
    (∀ e, (step fuel (.interviewLoop shellTs shellSk pF done pending acc) s).outcome = .exc e →
      ∃ qs' acc', (step fuel (.interviewLoop shellTs shellSk pF done pending acc) s).question
        = .mk (.interview qs' (some acc') pF) shellTs shellSk) := by
  induction fuel with
  | zero =>
    intro shellTs shellSk pF done pending acc s
    constructor
    · intro v hv; simp [step] at hv
    · intro e he; simp [step] at he
  | succ n ih =>
    intro shellTs shellSk pF done pending acc s
    cases pending with
    | nil =>
      constructor
      · intro v hv
        exact ⟨done, by simp [step]⟩
      · intro e he
        simp [step] at he
    | cons p rest =>
      obtain ⟨name, q⟩ := p
      by_cases hq1 : (applyTransformations acc q.transformations q).is_skipped = true
      · constructor
        · intro v hv
          simp only [step, hq1, if_true] at hv ⊢
          exact (ih _ _ _ _ _ _ _).1 v hv
        · intro e he
          simp only [step, hq1, if_true] at he ⊢
          exact (ih _ _ _ _ _ _ _).2 e he
      · rcases hout : (step n (.askWithValidation
            (applyTransformations acc q.transformations q) acc) s).outcome with v0 | e0
        · constructor
          · intro v hv
            simp only [step, hq1, if_false, hout] at hv ⊢
            exact (ih _ _ _ _ _ _ _).1 v hv
          · intro e he
            simp only [step, hq1, if_false, hout] at he ⊢
            exact (ih _ _ _ _ _ _ _).2 e he
        · constructor
          · intro v hv
            simp only [step, hq1, if_false, hout] at hv
            cases hv
          · intro e he
            refine ⟨done ++ [(name, (step n (.askWithValidation
              (applyTransformations acc q.transformations q) acc) s).question)] ++ rest, acc, ?_⟩
            simp [step, hq1, hout]
        · constructor
          · intro v hv
            simp only [step, hq1, if_false, hout] at hv
            cases hv
          · intro e he
            simp only [step, hq1, if_false, hout] at he
            cases he

/-- The keys of an encoded dict are the keys of the association list. -/
theorem Val.dictKeys_ofDict (l : List (String × Val)) :
    (Val.ofDict l).dictKeys = l.map Prod.fst := by
  induction l with
  | nil => rfl
  | cons p r ih => obtain ⟨k, v⟩ := p; simp [Val.ofDict, Val.dictKeys, ih]

/-- Children already processed by the loop of `Interview._ask` stay in the
`questions` dict of the resulting interview node. -/
theorem interviewLoop_done_subset (fuel : Nat) :
    ∀ (shellTs : List Transformation) (shellSk pF : Bool)
      (done pending : List (String × QuestionABC))
      (acc : List (String × Val)) (s : List Event) (p : String × QuestionABC),
    p ∈ done →
    p ∈ (step fuel (.interviewLoop shellTs shellSk pF done pending acc) s).question.questions := by
  induction fuel with
  | zero =>
    intro shellTs shellSk pF done pending acc s p hp
    simp only [step, Call.currentQuestion, QuestionABC.questions]
    exact List.mem_append_left _ hp
  | succ n ih =>
    intro shellTs shellSk pF done pending acc s p hp
    cases pending with
    | nil => simpa [step, QuestionABC.questions] using hp
    | cons hd rest =>
      obtain ⟨name, q⟩ := hd
      by_cases hq1 : (applyTransformations acc q.transformations q).is_skipped = true
      · simp only [step, hq1, if_true]
        exact ih _ _ _ _ _ _ _ _ (List.mem_append_left _ hp)
      · rcases hout : (step n (.askWithValidation
            (applyTransformations acc q.transformations q) acc) s).outcome with v0 | e0
        · simp only [step, hq1, if_false, hout]
          have := ih shellTs shellSk pF
            (done ++ [(name, (step n (.askWithValidation
              (applyTransformations acc q.transformations q) acc) s).question)]) rest
            (if (step n (.askWithValidation
              (applyTransformations acc q.transformations q) acc) s).question.is_skipped
              then acc else acc ++ [(name, v0)])
            (step n (.askWithValidation
              (applyTransformations acc q.transformations q) acc) s).stream p
            (List.mem_append_left _ hp)
          simpa using this
        · simp only [step, hq1, if_false, hout, QuestionABC.questions]
          exact List.mem_append_left _ (List.mem_append_left _ hp)
        · simp only [step, hq1, if_false, hout, QuestionABC.questions]
          exact List.mem_append_left _ (List.mem_append_left _ hp)

/-- A child whose transform pipeline always ends up skipped (for every
possible answers mapping) is omitted from the result mapping of
`Interview._ask`, provided its name is not already among the accumulated
answers. -/
theorem interviewLoop_omits (name : String) (fuel : Nat) :
    ∀ (shellTs : List Transformation) (shellSk pF : Bool)
      (done pending : List (String × QuestionABC))
      (acc : List (String × Val)) (s : List Event),
    name ∉ acc.map Prod.fst →
    (∀ p ∈ pending, p.1 = name →
      ∀ a, (applyTransformations a p.2.transformations p.2).is_skipped = true) →
    ∀ v, (step fuel (.interviewLoop shellTs shellSk pF done pending acc) s).outcome = .ok v →
    name ∉ v.dictKeys := by
  induction fuel with
  | zero =>
    intro shellTs shellSk pF done pending acc s hacc hpend v hv
    simp [step] at hv
  | succ n ih =>
    intro shellTs shellSk pF done pending acc s hacc hpend v hv
    cases pending with
    | nil =>
      simp only [step] at hv
      cases hv
      simpa [Val.dictKeys_ofDict] using hacc
    | cons hd rest =>
      obtain ⟨name2, q⟩ := hd
      by_cases hq1 : (applyTransformations acc q.transformations q).is_skipped = true
      · simp only [step, hq1, if_true] at hv
        exact ih _ _ _ _ _ _ _ hacc
          (fun p hp he => hpend p (List.mem_cons_of_mem _ hp) he) v hv
      · have hne : name2 ≠ name := by
          intro he
          exact hq1 (hpend (name2, q) (List.mem_cons_self _ _) he acc)
        rcases hout : (step n (.askWithValidation
            (applyTransformations acc q.transformations q) acc) s).outcome with v0 | e0
        · simp only [step, hq1, if_false, hout] at hv
          refine ih _ _ _ _ _ _ _ ?_ (fun p hp he => hpend p (List.mem_cons_of_mem _ hp) he) v hv
          split
          · exact hacc
          · simp only [List.map_append, List.map_cons, List.map_nil]
            intro hmem
            rcases List.mem_append.mp hmem with h1 | h2
            · exact hacc h1
            · exact hne (List.mem_singleton.mp h2).symm
        · simp only [step, hq1, if_false, hout] at hv
          cases hv
        · simp only [step, hq1, if_false, hout] at hv
          cases hv

/-- A child of an Interview whose skip flag is already set stays in the
`questions` dict with the flag still set after any run of the child loop. -/
theorem interviewLoop_skipped_persists (name : String) (fuel : Nat) :
    ∀ (shellTs : List Transformation) (shellSk pF : Bool)
      (done pending : List (String × QuestionABC))
      (acc : List (String × Val)) (s : List Event) (q : QuestionABC),
    ((name, q) ∈ done ∨ (name, q) ∈ pending) → q.is_skipped = true →
    ∃ q', (name, q') ∈
        (step fuel (.interviewLoop shellTs shellSk pF done pending acc) s).question.questions ∧
      q'.is_skipped = true := by
  induction fuel with
  | zero =>
    intro shellTs shellSk pF done pending acc s q hq hsk
    refine ⟨q, ?_, hsk⟩
    simp only [step, Call.currentQuestion, QuestionABC.questions]
    rcases hq with h | h
    · exact List.mem_append_left _ h
    · exact List.mem_append_right _ h
  | succ n ih =>
    intro shellTs shellSk pF done pending acc s q hq hsk
    cases pending with
    | nil =>
      rcases hq with h | h
      · exact ⟨q, by simpa [step, QuestionABC.questions] using h, hsk⟩
      · cases h
    | cons hd rest =>
      obtain ⟨name2, q2⟩ := hd
      by_cases hq1 : (applyTransformations acc q2.transformations q2).is_skipped = true
      · simp only [step, hq1, if_true]
        rcases hq with h | h
        · exact ih _ _ _ _ _ _ _ q (Or.inl (List.mem_append_left _ h)) hsk
        · rcases List.mem_cons.mp h with h2 | h2
          · cases h2
            refine ih _ _ _ _ _ _ _ (applyTransformations acc q.transformations q)
              (Or.inl ?_) hq1
            exact List.mem_append_right _ (by simp)
          · exact ih _ _ _ _ _ _ _ q (Or.inr h2) hsk
      · rcases hq with h | h
        · rcases hout : (step n (.askWithValidation
              (applyTransformations acc q2.transformations q2) acc) s).outcome with v0 | e0
          · simp only [step, hq1, if_false, hout]
            have := ih shellTs shellSk pF
              (done ++ [(name2, (step n (.askWithValidation
                (applyTransformations acc q2.transformations q2) acc) s).question)]) rest
              (if (step n (.askWithValidation
                (applyTransformations acc q2.transformations q2) acc) s).question.is_skipped
                then acc else acc ++ [(name2, v0)])
              (step n (.askWithValidation
                (applyTransformations acc q2.transformations q2) acc) s).stream q
              (Or.inl (List.mem_append_left _ h)) hsk
            simpa using this
          · refine ⟨q, ?_, hsk⟩
            simp only [step, hq1, if_false, hout, QuestionABC.questions]
            exact List.mem_append_left _ (List.mem_append_left _ h)
          · refine ⟨q, ?_, hsk⟩
            simp only [step, hq1, if_false, hout, QuestionABC.questions]
            exact List.mem_append_left _ (List.mem_append_left _ h)
        · rcases List.mem_cons.mp h with h2 | h2
          · exfalso
            have heq : q2 = q := congrArg Prod.snd h2.symm
            rw [heq] at hq1
            exact hq1 (applyTransformations_skip_mono _ _ _ hsk)
          · rcases hout : (step n (.askWithValidation
                (applyTransformations acc q2.transformations q2) acc) s).outcome with v0 | e0
            · simp only [step, hq1, if_false, hout]
              have := ih shellTs shellSk pF
                (done ++ [(name2, (step n (.askWithValidation
                  (applyTransformations acc q2.transformations q2) acc) s).question)]) rest
                (if (step n (.askWithValidation
                  (applyTransformations acc q2.transformations q2) acc) s).question.is_skipped
                  then acc else acc ++ [(name2, v0)])
                (step n (.askWithValidation
                  (applyTransformations acc q2.transformations q2) acc) s).stream q
                (Or.inr h2) hsk
              simpa using this
            · refine ⟨q, ?_, hsk⟩
              simp only [step, hq1, if_false, hout, QuestionABC.questions]
              exact List.mem_append_right _ h2
            · refine ⟨q, ?_, hsk⟩
              simp only [step, hq1, if_false, hout, QuestionABC.questions]
              exact List.mem_append_right _ h2

/-- A chain records one answer per pending child, under the child's name, in
declaration order. -/
theorem AnswersChain.map_fst {fuel : Nat} {pending : List (String × QuestionABC)}
    {acc : List (String × Val)} {s : List Event} {ans : List (String × Val)}
    {s' : List Event} (h : AnswersChain fuel pending acc s ans s') :
    ans.map Prod.fst = pending.map Prod.fst := by
  induction h with
  | nil _ _ _ => rfl
  | cons _ _ _ _ _ _ _ _ _ _ _ _ _ ih => simpa using ih

/-- When the child loop of `Interview._ask` returns normally and none of the
children of the resulting interview node is marked skipped, every pending
child was asked through `_ask_with_validation` and its answer recorded: the
returned dict extends the accumulated answers with exactly one entry per
pending child, in declaration order. -/
theorem interviewLoop_ok_chain (fuel : Nat) :
    ∀ (shellTs : List Transformation) (shellSk pF : Bool)
      (done pending : List (String × QuestionABC))
      (acc : List (String × Val)) (s : List Event) (v : Val),
    (step fuel (.interviewLoop shellTs shellSk pF done pending acc) s).outcome = .ok v →
    (∀ p ∈ (step fuel (.interviewLoop shellTs shellSk pF done pending acc) s).question.questions,
      p.2.is_skipped = false) →
    ∃ ans, AnswersChain fuel pending acc s ans
        (step fuel (.interviewLoop shellTs shellSk pF done pending acc) s).stream ∧
      v = Val.ofDict (acc ++ ans) := by
  induction fuel with
  | zero =>
    intro shellTs shellSk pF done pending acc s v hv _
    simp [step] at hv
  | succ n ih =>
    intro shellTs shellSk pF done pending acc s v hv hns
    cases pending with
    | nil =>
      simp only [step] at hv ⊢
      cases hv
      exact ⟨[], AnswersChain.nil _ _ _, by simp⟩
    | cons hd rest =>
      obtain ⟨name, q⟩ := hd
      by_cases hq1 : (applyTransformations acc q.transformations q).is_skipped = true
      · exfalso
        have hmem : (name, applyTransformations acc q.transformations q) ∈
            (step (n+1) (.interviewLoop shellTs shellSk pF done ((name, q) :: rest) acc) s).question.questions := by
          simp only [step, hq1, if_true]
          exact interviewLoop_done_subset n _ _ _ _ _ _ _ _ (by simp)
        have := hns _ hmem
        rw [hq1] at this
        cases this
      · rcases hout : (step n (.askWithValidation
            (applyTransformations acc q.transformations q) acc) s).outcome with a | e0
        · by_cases hsk2 : (step n (.askWithValidation
              (applyTransformations acc q.transformations q) acc) s).question.is_skipped = true
          · exfalso
            have hmem : (name, (step n (.askWithValidation
                (applyTransformations acc q.transformations q) acc) s).question) ∈
                (step (n+1) (.interviewLoop shellTs shellSk pF done ((name, q) :: rest) acc) s).question.questions := by
              simp only [step, hq1, if_false, hout]
              have := interviewLoop_done_subset n shellTs shellSk pF
                (done ++ [(name, (step n (.askWithValidation
                  (applyTransformations acc q.transformations q) acc) s).question)]) rest
                (if (step n (.askWithValidation
                  (applyTransformations acc q.transformations q) acc) s).question.is_skipped
                  then acc else acc ++ [(name, a)])
                (step n (.askWithValidation
                  (applyTransformations acc q.transformations q) acc) s).stream
                (name, (step n (.askWithValidation
                  (applyTransformations acc q.transformations q) acc) s).question)
                (by simp)
              simpa using this
            have := hns _ hmem
            rw [hsk2] at this
            cases this
          · rw [Bool.not_eq_true] at hsk2
            have hv2 : (step n (.interviewLoop shellTs shellSk pF
                (done ++ [(name, (step n (.askWithValidation
                  (applyTransformations acc q.transformations q) acc) s).question)]) rest
                (acc ++ [(name, a)]))
                (step n (.askWithValidation
                  (applyTransformations acc q.transformations q) acc) s).stream).outcome
                = .ok v := by
              have := hv
              simp only [step, hq1, if_false, hout, hsk2] at this
              simpa using this
            have hns2 : ∀ p ∈ (step n (.interviewLoop shellTs shellSk pF
                (done ++ [(name, (step n (.askWithValidation
                  (applyTransformations acc q.transformations q) acc) s).question)]) rest
                (acc ++ [(name, a)]))
                (step n (.askWithValidation
                  (applyTransformations acc q.transformations q) acc) s).stream).question.questions,
                p.2.is_skipped = false := by
              intro p hp
              refine hns p ?_
              simp only [step, hq1, if_false, hout, hsk2]
              simpa using hp
            obtain ⟨ans', hchain, hveq⟩ := ih shellTs shellSk pF _ rest _ _ v hv2 hns2
            refine ⟨(name, a) :: ans', ?_, ?_⟩
            · have hstream : (step (n+1) (.interviewLoop shellTs shellSk pF done
                  ((name, q) :: rest) acc) s).stream
                  = (step n (.interviewLoop shellTs shellSk pF
                    (done ++ [(name, (step n (.askWithValidation
                      (applyTransformations acc q.transformations q) acc) s).question)]) rest
                    (acc ++ [(name, a)]))
                    (step n (.askWithValidation
                      (applyTransformations acc q.transformations q) acc) s).stream).stream := by
                simp only [step, hq1, if_false, hout, hsk2]
                simp
              rw [hstream]
              exact AnswersChain.cons n name q rest acc s a ans' _
                (Bool.not_eq_true _ ▸ hq1) hout hsk2 hchain
            · rw [hveq]
              simp
        · exfalso
          have := hv
          simp only [step, hq1, if_false, hout] at this
          cases this
        · exfalso
          have := hv
          simp only [step, hq1, if_false, hout] at this
          cases this

/-- C6: for every Interview and every batch passed to `add_questions`, if any
name of the batch is already registered the call raises the duplicate-key
error and the question set is left completely unchanged; otherwise the whole
batch is added. -/
theorem c6_add_questions_atomic (existing batch : List (String × QuestionABC)) :
    ((Interview.add_questions existing batch).1 ≠ [] ↔
      ∃ k ∈ batch.map Prod.fst, k ∈ existing.map Prod.fst) ∧
    ((Interview.add_questions existing batch).1 ≠ [] →
      (Interview.add_questions existing batch).2 = existing) ∧
    ((Interview.add_questions existing batch).1 = [] →
      (Interview.add_questions existing batch).2 = existing ++ batch) := by
  simp only [Interview.add_questions]
  split_ifs with h
  · have h' : ((batch.map Prod.fst).filter fun k => (existing.map Prod.fst).contains k) = [] :=
      List.isEmpty_iff.mp h
    have hall := List.filter_eq_nil_iff.mp h'
    refine ⟨?_, ?_, ?_⟩
    · constructor
      · intro hne; exact absurd rfl hne
      · rintro ⟨k, hk1, hk2⟩
        exfalso
        have hc := hall k hk1
        exact hc (List.elem_iff.mpr hk2)
    · intro hne; exact absurd rfl hne
    · intro _; rfl
  · have h' : ((batch.map Prod.fst).filter fun k => (existing.map Prod.fst).contains k) ≠ [] :=
      fun hh => h (by rw [hh]; rfl)
    refine ⟨?_, ?_, ?_⟩
    · constructor
      · intro _
        obtain ⟨k, hk⟩ := List.exists_mem_of_ne_nil _ h'
        refine ⟨k, List.mem_of_mem_filter hk, ?_⟩
        have := List.of_mem_filter hk
        simpa using this
      · intro _; exact h'
    · intro _; rfl
    · intro hcon; exact absurd hcon h'

/-- Witness for C6 at a concrete colliding and a concrete disjoint batch. -/
theorem c6_add_questions_atomic_witness :
    (Interview.add_questions [("a", exLeaf)] [("a", exLeaf)]).2 = [("a", exLeaf)] ∧
    (Interview.add_questions [("a", exLeaf)] [("b", exLeaf)]).2
      = [("a", exLeaf)] ++ [("b", exLeaf)] := by
  constructor
  · exact (c6_add_questions_atomic [("a", exLeaf)] [("a", exLeaf)]).2.1 (by decide)
  · exact (c6_add_questions_atomic [("a", exLeaf)] [("b", exLeaf)]).2.2 (by decide)

/-- C2 counterexample: aborting a nested interview with Ctrl+C propagates a
`UserExitException` out of `Interview.ask`, and afterwards the inner
interview instance still has `_answers = {}` (not `None`) and its
`parent_interview` still set; the outer instance also keeps `_answers`.
The claim that both are always cleared on termination is therefore false. -/
theorem c2_counterexample :
    (Interview.ask 10 exIvNest [.ctrlC]).outcome = .exc (.userExit .ctrlC) ∧
    (Interview.ask 10 exIvNest [.ctrlC]).question.questions.map
      (fun p => (p.2.answersField, p.2.parentSet)) = [(some [], true)] ∧
    (Interview.ask 10 exIvNest [.ctrlC]).question.answersField = some [] := by
  refine ⟨rfl, rfl, rfl⟩

/-- C2 amended: when `Interview._ask` terminates normally, the `finally`
around its `return` clears `_answers` and `parent_interview`; when a
`UserExitException` (or any exception) propagates out of a child's ask, the
method is abandoned before that cleanup runs, so `_answers` (holding the
partial answers) and `parent_interview` keep the values set at the start of
the call. -/
theorem c2_interview_ask_state (fuel : Nat) (qs : List (String × QuestionABC))
    (ts : List Transformation) (sk : Bool) (aF : Option (List (String × Val)))
    (pF ivIsNone : Bool) (ivAnswers : List (String × Val)) (s : List Event) :
    (∀ v, (step fuel (.ask (.mk (.interview qs aF pF) ts sk) ivIsNone ivAnswers) s).outcome
        = .ok v →
      ∃ qs', (step fuel (.ask (.mk (.interview qs aF pF) ts sk) ivIsNone ivAnswers) s).question
        = .mk (.interview qs' none false) ts sk) ∧
    (∀ e, (step fuel (.ask (.mk (.interview qs aF pF) ts sk) ivIsNone ivAnswers) s).outcome
        = .exc e →
      ∃ qs' acc, (step fuel (.ask (.mk (.interview qs aF pF) ts sk) ivIsNone ivAnswers) s).question
        = .mk (.interview qs' (some acc) (!ivIsNone)) ts sk) := by
  cases fuel with
  | zero =>
    constructor
    · intro v hv; simp [step] at hv
    · intro e he; simp [step] at he
  | succ n =>
    constructor
    · intro v hv
      simp only [step] at hv ⊢
      exact (interviewLoop_state n ts sk (!ivIsNone) [] qs [] s).1 v hv
    · intro e he
      simp only [step] at he ⊢
      exact (interviewLoop_state n ts sk (!ivIsNone) [] qs [] s).2 e he

/-- Witness for C2 (amended), at a concrete completed run and a concrete
aborted run. -/
theorem c2_interview_ask_state_witness :
    (∃ qs', (step 10 (.ask exIvSkip true []) []).question
      = .mk (.interview qs' none false) [] false) ∧
    (∃ qs' acc, (step 10 (.ask (.mk (.interview [("x", exLeaf)] none false) [] false) false [])
        [.ctrlC]).question
      = .mk (.interview qs' (some acc) (!false)) [] false) := by
  constructor
  · exact (c2_interview_ask_state 10 [("a", .mk .leaf [.keepIf (fun _ => false)] false)]
      [] false none false true [] []).1 (Val.ofDict []) rfl
  · exact (c2_interview_ask_state 10 [("x", exLeaf)] [] false none false false [] [.ctrlC]).2
      (.userExit .ctrlC) rfl

/-- C4 counterexample: an interview whose only child is skipped by an
always-false keep-if completes normally, yet afterwards the child's
`is_skipped` flag is still `True`: `Interview.ask` does not clear skip
flags. -/
theorem c4_counterexample :
    (Interview.ask 10 exIvSkip []).outcome = .ok (Val.ofDict []) ∧
    (Interview.ask 10 exIvSkip []).question.questions.map
      (fun p => (p.1, p.2.is_skipped)) = [("a", true)] := by
  refine ⟨rfl, rfl⟩

/-- C4 amended: after `Interview.ask` completes, the transient `_answers`
and `parent_interview` are cleared, but no `is_skipped` flag is reset: a
child marked skipped during the ask (here by a keep-if whose predicate
rejects the empty answers mapping) is omitted from the result and keeps
`is_skipped = True` once the ask has completed. -/
theorem c4_skip_flag_not_cleared (fuel : Nat) (name : String)
    (p : List (String × Val) → Bool) (hp : p [] = false) (s : List Event) :
    (Interview.ask (fuel + 3)
        (.mk (.interview [(name, .mk .leaf [.keepIf p] false)] none false) [] false) s).outcome
      = .ok (Val.ofDict []) ∧
    (Interview.ask (fuel + 3)
        (.mk (.interview [(name, .mk .leaf [.keepIf p] false)] none false) [] false) s).question
      = .mk (.interview [(name, .mk .leaf [.keepIf p] true)] none false) [] false := by
  have hq1 : applyTransformations [] [Transformation.keepIf p] (.mk .leaf [.keepIf p] false)
      = .mk .leaf [.keepIf p] true := by
    simp [applyTransformations, Transformation.transform, hp, QuestionABC.skip]
  constructor
  · simp only [Interview.ask, step, QuestionABC.transformations, hq1, QuestionABC.is_skipped,
      if_true]
  · simp only [Interview.ask, step, QuestionABC.transformations, hq1, QuestionABC.is_skipped,
      if_true]
    simp

/-- Witness for C4 (amended) at the concrete always-false predicate. -/
theorem c4_skip_flag_not_cleared_witness :
    (Interview.ask 10 (.mk (.interview [("a", .mk .leaf [.keepIf (fun _ => false)] false)]
        none false) [] false) []).question
      = .mk (.interview [("a", .mk .leaf [.keepIf (fun _ => false)] true)] none false)
        [] false := by
  exact (c4_skip_flag_not_cleared 7 "a" (fun _ => false) rfl []).2

/-- C1: for every Interview whose run terminates normally and leaves no child
marked skipped, `ask()` returns a mapping whose keys are exactly the declared
child names, in declaration order, each mapped to the answer produced by that
child's `_ask_with_validation` (recorded in an `AnswersChain`). -/
theorem c1_interview_ask_all_declared_keys (fuel : Nat)
    (qs : List (String × QuestionABC)) (ts : List Transformation) (sk : Bool)
    (aF : Option (List (String × Val))) (pF : Bool) (s : List Event) (v : Val)
    (hok : (Interview.ask (fuel + 1) (.mk (.interview qs aF pF) ts sk) s).outcome = .ok v)
    (hns : ∀ p ∈ (Interview.ask (fuel + 1) (.mk (.interview qs aF pF) ts sk) s).question.questions,
      p.2.is_skipped = false) :
    ∃ ans, AnswersChain fuel qs [] s ans
        (Interview.ask (fuel + 1) (.mk (.interview qs aF pF) ts sk) s).stream ∧
      v = Val.ofDict ans ∧ ans.map Prod.fst = qs.map Prod.fst := by
  have hstep : Interview.ask (fuel + 1) (.mk (.interview qs aF pF) ts sk) s
      = step fuel (.interviewLoop ts sk false [] qs []) s := by
    simp [Interview.ask, step]
  rw [hstep] at hok hns ⊢
  obtain ⟨ans, hchain, hveq⟩ := interviewLoop_ok_chain fuel ts sk false [] qs [] s v hok hns
  exact ⟨ans, hchain, by simpa using hveq, hchain.map_fst⟩

/-- Witness for C1 at a two-leaf interview fed two answers. -/
theorem c1_interview_ask_all_declared_keys_witness :
    ∃ ans, AnswersChain 7 [("a", exLeaf), ("b", exLeaf)] []
        [.ans (.vint 1), .ans (.vint 2)] ans
        (Interview.ask 8 (.mk (.interview [("a", exLeaf), ("b", exLeaf)] none false) [] false)
          [.ans (.vint 1), .ans (.vint 2)]).stream ∧
      Val.ofDict [("a", .vint 1), ("b", .vint 2)] = Val.ofDict ans ∧
      ans.map Prod.fst = [("a", exLeaf), ("b", exLeaf)].map Prod.fst := by
  refine c1_interview_ask_all_declared_keys 7 [("a", exLeaf), ("b", exLeaf)] [] false
    none false [.ans (.vint 1), .ans (.vint 2)] (Val.ofDict [("a", .vint 1), ("b", .vint 2)])
    rfl ?_
  have h : (Interview.ask 8 (.mk (.interview [("a", exLeaf), ("b", exLeaf)] none false) [] false)
      [.ans (.vint 1), .ans (.vint 2)]).question.questions
      = [("a", exLeaf), ("b", exLeaf)] := rfl
  intro p hp
  rw [h] at hp
  rcases List.mem_cons.mp hp with rfl | hp2
  · rfl
  · rcases List.mem_cons.mp hp2 with rfl | hp3
    · rfl
    · cases hp3

/-- Unfolding of one rejected iteration of `_ask_with_validation`: when the
produced answer fails validation, the loop prints the collected message and
re-asks on the remaining stream. -/
theorem askWV_unfold_reject (fuel : Nat) (q : QuestionABC) (ivA : List (String × Val))
    (s0 : List Event) (a : Val)
    (ha : (step fuel (.ask q false ivA) s0).outcome = .ok a)
    (hv : (runValidation ivA (step fuel (.ask q false ivA) s0).question.transformations a).1
      = false) :
    step (fuel + 1) (.askWithValidation q ivA) s0 =
      ⟨(step fuel (.askWithValidation (step fuel (.ask q false ivA) s0).question ivA)
          (step fuel (.ask q false ivA) s0).stream).outcome,
        (step fuel (.askWithValidation (step fuel (.ask q false ivA) s0).question ivA)
          (step fuel (.ask q false ivA) s0).stream).question,
        (step fuel (.askWithValidation (step fuel (.ask q false ivA) s0).question ivA)
          (step fuel (.ask q false ivA) s0).stream).stream,
        (step fuel (.ask q false ivA) s0).prints
          ++ (runValidation ivA (step fuel (.ask q false ivA) s0).question.transformations a).2
          ++ (step fuel (.askWithValidation (step fuel (.ask q false ivA) s0).question ivA)
            (step fuel (.ask q false ivA) s0).stream).prints⟩ := by
  simp only [step, ha, hv]
  simp

/-- Unfolding of one accepted iteration of `_ask_with_validation`. -/
theorem askWV_unfold_pass (fuel : Nat) (q : QuestionABC) (ivA : List (String × Val))
    (s0 : List Event) (a : Val)
    (ha : (step fuel (.ask q false ivA) s0).outcome = .ok a)
    (hv : (runValidation ivA (step fuel (.ask q false ivA) s0).question.transformations a).1
      = true) :
    step (fuel + 1) (.askWithValidation q ivA) s0 =
      ⟨.ok a, (step fuel (.ask q false ivA) s0).question,
        (step fuel (.ask q false ivA) s0).stream,
        (step fuel (.ask q false ivA) s0).prints
          ++ (runValidation ivA (step fuel (.ask q false ivA) s0).question.transformations a).2⟩ := by
  simp only [step, ha, hv]
  simp

/-- C5: `_ask_with_validation` evaluates the attached validate predicates in
attachment order, short-circuiting at the first failure independently of the
later transformations, printing that failure's non-null message; and a
ValidIf rejecting exactly the first k answers produces exactly k rejection
messages before the accepted answer is returned, for every k. -/
theorem c5_validation_order_and_retry :
    (∀ (ivA : List (String × Val)) (a : Val) (ts1 : List Transformation)
        (t : Transformation) (ts2 : List Transformation),
      (∀ t' ∈ ts1, Transformation.validate ivA t' a = true) →
      Transformation.validate ivA t a = false →
      runValidation ivA (ts1 ++ t :: ts2) a
        = (false, match t.validate__invalid_message with | some m => [m] | none => [])) ∧
    (∀ k, QuestionABC._ask_with_validation (k + 2) exValidQ [] (countdownStream k)
        = ⟨.ok (.vint 0), exValidQ, [], List.replicate k "nope"⟩) := by
  constructor
  · intro ivA a ts1 t ts2 hpass hfail
    induction ts1 with
    | nil => simp [runValidation, hfail]
    | cons t' rest ih =>
      have h' := hpass t' (List.mem_cons_self _ _)
      simp only [List.cons_append, runValidation, h', if_true]
      exact ih fun x hx => hpass x (List.mem_cons_of_mem _ hx)
  · intro k
    induction k with
    | zero => rfl
    | succ k ih =>
      have hne : (Val.vint (k + 1) == Val.vint 0) = false := by
        rw [beq_eq_false_iff_ne]
        intro hcon
        have := Val.vint.inj hcon
        omega
      have hask : step (k + 2) (.ask exValidQ false []) (countdownStream (k + 1))
          = ⟨.ok (.vint (k + 1)), exValidQ, countdownStream k, []⟩ := rfl
      have hv : (runValidation []
          (step (k + 2) (.ask exValidQ false []) (countdownStream (k + 1))).question.transformations
          (.vint (k + 1))).1 = false := by
        rw [hask]
        simp [exValidQ, QuestionABC.transformations, runValidation, Transformation.validate, hne]
      have hrej := askWV_unfold_reject (k + 2) exValidQ [] (countdownStream (k + 1))
        (.vint (k + 1)) (by rw [hask]) hv
      rw [hask] at hrej
      simp only [QuestionABC._ask_with_validation] at ih ⊢
      rw [show k + 1 + 2 = (k + 2) + 1 from rfl, hrej, ih]
      refine congrArg (fun pr => AskRes.mk (.ok (.vint 0)) exValidQ [] pr) ?_
      have hrv : (runValidation [] exValidQ.transformations (Val.vint (k + 1))).2
          = ["nope"] := by
        simp [exValidQ, QuestionABC.transformations, runValidation, Transformation.validate,
          Transformation.validate__invalid_message, hne]
      rw [hrv]
      simp [List.replicate_succ]

/-- Witness for C5: two transformations where the first rejects, and the
retry run at k = 2. -/
theorem c5_validation_order_and_retry_witness :
    runValidation [] ([] ++ Transformation.validIf (fun _ _ => false) (some "bad")
        :: [Transformation.validIf (fun _ _ => true) (some "later")]) (.vint 7)
      = (false, ["bad"]) ∧
    QuestionABC._ask_with_validation 4 exValidQ [] (countdownStream 2)
      = ⟨.ok (.vint 0), exValidQ, [], List.replicate 2 "nope"⟩ := by
  constructor
  · exact c5_validation_order_and_retry.1 [] (.vint 7) []
      (Transformation.validIf (fun _ _ => false) (some "bad"))
      [Transformation.validIf (fun _ _ => true) (some "later")]
      (fun t' ht' => by cases ht') rfl
  · exact c5_validation_order_and_retry.2 2

/-- C7: with `ensure_unique` set, feeding 5, 5, 7, 0 returns (5, 7) with
exactly one not-unique message; and in general the collection loop never
appends an item equal to one already collected: from a duplicate-free
collected list, any normal result is a duplicate-free extension of it. -/
theorem c7_tuple_ensure_unique :
    ((step 13 (.ask exUniqTuple false [])
        [.ans (.vint 5), .ans (.vint 5), .ans (.vint 7), .ans (.vint 0)]).outcome
      = .ok (Val.ofList [.vint 5, .vint 7]) ∧
    (step 13 (.ask exUniqTuple false [])
        [.ans (.vint 5), .ans (.vint 5), .ans (.vint 7), .ans (.vint 0)]).prints
      = [get_error_text__not_unique] ∧
    (step 13 (.ask exUniqTuple false [])
        [.ans (.vint 5), .ans (.vint 5), .ans (.vint 7), .ans (.vint 0)]).stream = []) ∧
    (∀ (fuel : Nat) (mkq : List Val → QuestionABC) (endc : Val → Bool)
        (eod eoc : Bool) (mi ma : Nat) (ts : List Transformation) (sk : Bool)
        (ivA : List (String × Val)) (lst : List Val) (s : List Event) (v : Val),
      lst.Nodup →
      (step fuel (.tupleLoop mkq endc eod eoc true mi ma ts sk ivA lst) s).outcome = .ok v →
      ∃ l, v = Val.ofList l ∧ l.Nodup ∧ ∃ ext, l = lst ++ ext) := by
  refine ⟨⟨rfl, rfl, rfl⟩, ?_⟩
  intro fuel
  induction fuel with
  | zero =>
    intro mkq endc eod eoc mi ma ts sk ivA lst s v hnd hv
    simp [step] at hv
  | succ n ih =>
    intro mkq endc eod eoc mi ma ts sk ivA lst s v hnd hv
    by_cases hmax : ma ≤ lst.length
    · simp only [step, if_pos hmax] at hv
      cases hv
      exact ⟨lst, rfl, hnd, [], by simp⟩
    · rcases hout : (step n (.askWithValidation (mkq lst) ivA) s).outcome with item | e0
      · by_cases hend : endc item = true
        · by_cases hmin : lst.length < mi
          · simp only [step, if_neg hmax, hout, hend, if_true, if_pos hmin] at hv
            exact ih mkq endc eod eoc mi ma ts _ ivA lst _ v hnd (by simpa using hv)
          · simp only [step, if_neg hmax, hout, hend, if_true, if_neg hmin] at hv
            cases hv
            exact ⟨lst, rfl, hnd, [], by simp⟩
        · rw [Bool.not_eq_true] at hend
          by_cases hmem : item ∈ lst
          · simp only [step, if_neg hmax, hout, hend] at hv
            rw [if_neg (by simp [hend]), if_pos (by exact ⟨trivial, hmem⟩)] at hv
            exact ih mkq endc eod eoc mi ma ts _ ivA lst _ v hnd (by simpa using hv)
          · simp only [step, if_neg hmax, hout, hend] at hv
            rw [if_neg (by simp [hend]), if_neg (by rintro ⟨-, hc⟩; exact hmem hc)] at hv
            have hnd2 : (lst ++ [item]).Nodup := by
              refine List.nodup_append.mpr ⟨hnd, List.nodup_singleton _, ?_⟩
              intro x hx hx2
              rw [List.mem_singleton] at hx2
              subst hx2
              exact hmem hx
            obtain ⟨l, hl1, hl2, ext, hl3⟩ :=
              ih mkq endc eod eoc mi ma ts _ ivA (lst ++ [item]) _ v hnd2 (by simpa using hv)
            exact ⟨l, hl1, hl2, [item] ++ ext, by simpa [List.append_assoc] using hl3⟩
      · cases e0 with
        | raw c =>
          simp only [step, if_neg hmax, hout] at hv
          cases hv
        | userExit c =>
          by_cases habs : (eod ∧ c = .ctrlD) ∨ (eoc ∧ c = .ctrlC)
          · by_cases hmin : lst.length < mi
            · simp only [step, if_neg hmax, hout, if_pos habs, if_pos hmin] at hv
              exact ih mkq endc eod eoc mi ma ts sk ivA lst _ v hnd (by simpa using hv)
            · simp only [step, if_neg hmax, hout, if_pos habs, if_neg hmin] at hv
              cases hv
              exact ⟨lst, rfl, hnd, [], by simp⟩
          · simp only [step, if_neg hmax, hout, if_neg habs] at hv
            cases hv
      · simp only [step, if_neg hmax, hout] at hv
        cases hv

/-- Witness for C7's general part: from the empty collected list, the
concrete unique run yields a duplicate-free extension. -/
theorem c7_tuple_ensure_unique_witness :
    ∃ l, Val.ofList [Val.vint 5, Val.vint 7] = Val.ofList l ∧ l.Nodup ∧
      ∃ ext, l = [] ++ ext := by
  exact c7_tuple_ensure_unique.2 12 (fun _ => exLeaf) (fun v => v == Val.vint 0)
    true false 0 2147483647 [] false [] []
    [.ans (.vint 5), .ans (.vint 5), .ans (.vint 7), .ans (.vint 0)]
    (Val.ofList [.vint 5, .vint 7]) List.nodup_nil rfl

/-- C9: a `UserExitException` of the Ctrl+C channel raised while a Tuple
with `end_on_ctrl_c=False` collects items is re-raised (and propagates out
of the whole enclosing Interview, as the concrete run shows), while a
Ctrl+D-channel exit under the default `end_on_ctrl_d=True` ends the loop
normally with the items collected so far (subject to `min_items`). -/
theorem c9_tuple_abort_channels :
    (∀ (fuel : Nat) (mkq : List Val → QuestionABC) (endc : Val → Bool)
        (eod uniq : Bool) (mi ma : Nat) (ts : List Transformation) (sk : Bool)
        (ivA : List (String × Val)) (lst : List Val) (s : List Event),
      lst.length < ma →
      (step fuel (.askWithValidation (mkq lst) ivA) s).outcome = .exc (.userExit .ctrlC) →
      (step (fuel + 1) (.tupleLoop mkq endc eod false uniq mi ma ts sk ivA lst) s).outcome
        = .exc (.userExit .ctrlC)) ∧
    (∀ (fuel : Nat) (mkq : List Val → QuestionABC) (endc : Val → Bool)
        (eoc uniq : Bool) (mi ma : Nat) (ts : List Transformation) (sk : Bool)
        (ivA : List (String × Val)) (lst : List Val) (s : List Event),
      lst.length < ma → mi ≤ lst.length →
      (step fuel (.askWithValidation (mkq lst) ivA) s).outcome = .exc (.userExit .ctrlD) →
      (step (fuel + 1) (.tupleLoop mkq endc true eoc uniq mi ma ts sk ivA lst) s).outcome
        = .ok (Val.ofList lst)) ∧
    (Interview.ask 12 exIvTup [.ans (.vint 1), .ctrlC]).outcome = .exc (.userExit .ctrlC) ∧
    (step 12 (.ask exTupDefault false []) [.ans (.vint 5), .ctrlD]).outcome
      = .ok (Val.ofList [.vint 5]) := by
  refine ⟨?_, ?_, rfl, rfl⟩
  · intro fuel mkq endc eod uniq mi ma ts sk ivA lst s hmax hout
    have hmax' : ¬ ma ≤ lst.length := by omega
    simp only [step, if_neg hmax', hout]
    rw [if_neg (by simp)]
  · intro fuel mkq endc eoc uniq mi ma ts sk ivA lst s hmax hmin hout
    have hmax' : ¬ ma ≤ lst.length := by omega
    have hmin' : ¬ lst.length < mi := by omega
    simp only [step, if_neg hmax', hout]
    rw [if_pos (by simp), if_neg hmin']

/-- Witness for C9's two general parts, at a leaf item question fed a bare
Ctrl+C and a collected item followed by Ctrl+D. -/
theorem c9_tuple_abort_channels_witness :
    (step 6 (.tupleLoop (fun _ => exLeaf) (fun _ => false) true false false 0 2147483647
        [] false [] []) [.ctrlC]).outcome = .exc (.userExit .ctrlC) ∧
    (step 6 (.tupleLoop (fun _ => exLeaf) (fun _ => false) true false false 0 2147483647
        [] false [] [.vint 5]) [.ctrlD]).outcome = .ok (Val.ofList [.vint 5]) := by
  constructor
  · exact c9_tuple_abort_channels.1 5 (fun _ => exLeaf) (fun _ => false) true false
      0 2147483647 [] false [] [] [.ctrlC] (by decide) rfl
  · exact c9_tuple_abort_channels.2.1 5 (fun _ => exLeaf) (fun _ => false) false false
      0 2147483647 [] false [] [.vint 5] [.ctrlD] (by decide) (by decide) rfl

/-- A keep-if transformation whose predicate is false for every answers
mapping leaves the transform pipeline's output marked skipped. -/
theorem applyTransformations_keepIf_false (p : List (String × Val) → Bool)
    (hp : ∀ a, p a = false) :
    ∀ (ts : List Transformation) (q : QuestionABC) (acc : List (String × Val)),
    Transformation.keepIf p ∈ ts →
    (applyTransformations acc ts q).is_skipped = true := by
  intro ts
  induction ts with
  | nil => intro q acc h; cases h
  | cons t rest ih =>
    intro q acc h
    rcases List.mem_cons.mp h with h1 | h1
    · subst h1
      have hstep : applyTransformations acc (Transformation.keepIf p :: rest) q
          = applyTransformations acc rest q.skip := by
        simp [applyTransformations, Transformation.transform, hp acc]
      rw [hstep]
      exact applyTransformations_skip_mono _ _ _ (QuestionABC.skip_sets_flag q)
    · have hstep : applyTransformations acc (t :: rest) q
          = applyTransformations acc rest (Transformation.transform acc t q) := by
        simp [applyTransformations]
      rw [hstep]
      exact ih _ acc h1

/-- C8: a child carrying a KeepIf whose predicate is always false is absent
from the mapping returned by `ask()`; the concrete run shows the child's ask
is never invoked (its events are left for the next child, and the run
completes even though asking it would have aborted). -/
theorem c8_keep_if_false_never_asked :
    (∀ (fuel : Nat) (qs : List (String × QuestionABC)) (ts : List Transformation)
        (sk : Bool) (aF : Option (List (String × Val))) (pF : Bool) (s : List Event)
        (name : String) (v : Val),
      (∀ q, (name, q) ∈ qs →
        ∃ p, Transformation.keepIf p ∈ q.transformations ∧ ∀ a, p a = false) →
      (Interview.ask fuel (.mk (.interview qs aF pF) ts sk) s).outcome = .ok v →
      name ∉ v.dictKeys) ∧
    ((Interview.ask 12 exIvC8 [.ans (.vint 1), .ans (.vint 2)]).outcome
      = .ok (Val.ofDict [("a", .vint 1), ("c", .vint 2)]) ∧
    (Interview.ask 12 exIvC8 [.ans (.vint 1), .ans (.vint 2)]).stream = [] ∧
    (Interview.ask 12 exIvC8 [.ans (.vint 1), .ans (.vint 2)]).prints = []) := by
  refine ⟨?_, rfl, rfl, rfl⟩
  intro fuel qs ts sk aF pF s name v hkeep hok
  cases fuel with
  | zero => simp [Interview.ask, step] at hok
  | succ n =>
    simp only [Interview.ask, step] at hok
    refine interviewLoop_omits name n ts sk _ [] qs [] s (by simp) ?_ v hok
    intro p hp hpname a
    obtain ⟨pr, hpr, hprf⟩ := hkeep p.2 (by rw [← hpname]; exact hp)
    exact applyTransformations_keepIf_false pr hprf p.2.transformations p.2 a hpr

/-- Witness for C8's general part at the concrete interview of the C8 run. -/
theorem c8_keep_if_false_never_asked_witness :
    "b" ∉ (Val.ofDict [("a", Val.vint 1), ("c", Val.vint 2)]).dictKeys := by
  refine c8_keep_if_false_never_asked.1 12
    [("a", exLeaf), ("b", .mk .leaf [.keepIf (fun _ => false)] false), ("c", exLeaf)]
    [] false none false [.ans (.vint 1), .ans (.vint 2)] "b"
    (Val.ofDict [("a", .vint 1), ("c", .vint 2)]) ?_ rfl
  intro q hq
  rcases List.mem_cons.mp hq with h | h
  · injection h with h1 h2
    exact absurd h1 (by decide)
  · rcases List.mem_cons.mp h with h2 | h2
    · injection h2 with h1 h3
      subst h3
      exact ⟨fun _ => false, List.mem_cons_self _ _, fun a => rfl⟩
    · rcases List.mem_cons.mp h2 with h3 | h3
      · injection h3 with h1 h4
        exact absurd h1 (by decide)
      · cases h3

/-- In an association list with duplicate-free keys, a key determines its
value. -/
theorem nodup_keys_value_unique {α : Type} :
    ∀ (l : List (String × α)), (l.map Prod.fst).Nodup →
    ∀ (k : String) (a b : α), (k, a) ∈ l → (k, b) ∈ l → a = b := by
  intro l
  induction l with
  | nil => intro _ k a b ha _; cases ha
  | cons hd tl ih =>
    intro hnd k a b ha hb
    obtain ⟨k0, v0⟩ := hd
    rw [List.map_cons, List.nodup_cons] at hnd
    rcases List.mem_cons.mp ha with h1 | h1 <;> rcases List.mem_cons.mp hb with h2 | h2
    · injection h1 with hk1 hv1
      injection h2 with hk2 hv2
      rw [hv1, hv2]
    · exfalso
      injection h1 with hk1 hv1
      subst hk1
      exact hnd.1 (List.mem_map.mpr ⟨(k, b), h2, rfl⟩)
    · exfalso
      injection h2 with hk2 hv2
      subst hk2
      exact hnd.1 (List.mem_map.mpr ⟨(k, a), h1, rfl⟩)
    · exact ih hnd.2 k a b h1 h2

/-- C10: the engine never resets a skip flag: `skip()` only sets it, a
`transform` only sets it or leaves it, no interpreter step resets the
evaluated question's flag, and a child of an Interview whose flag is set is
omitted from the result of an ask of that Interview and is still present
with the flag set afterwards (so it stays omitted in every subsequent ask). -/
theorem c10_skip_flag_never_reset :
    (∀ q : QuestionABC, q.skip.is_skipped = true) ∧
    (∀ (ivA : List (String × Val)) (t : Transformation) (q : QuestionABC),
      q.is_skipped = true → (Transformation.transform ivA t q).is_skipped = true) ∧
    (∀ (fuel : Nat) (c : Call) (s : List Event),
      c.currentQuestion.is_skipped = true → (step fuel c s).question.is_skipped = true) ∧
    (∀ (fuel : Nat) (qs : List (String × QuestionABC)) (ts : List Transformation)
        (sk : Bool) (aF : Option (List (String × Val))) (pF : Bool) (s : List Event)
        (name : String) (q : QuestionABC),
      (name, q) ∈ qs → q.is_skipped = true →
      (∀ v, (Interview.ask fuel (.mk (.interview qs aF pF) ts sk) s).outcome = .ok v →
        (qs.map Prod.fst).Nodup → name ∉ v.dictKeys) ∧
      (∃ q', (name, q') ∈
          (Interview.ask fuel (.mk (.interview qs aF pF) ts sk) s).question.questions ∧
        q'.is_skipped = true)) := by
  refine ⟨QuestionABC.skip_sets_flag, Transformation.transform_skip_mono, step_skip_mono, ?_⟩
  intro fuel qs ts sk aF pF s name q hmem hsk
  constructor
  · intro v hok hnd
    cases fuel with
    | zero => simp [Interview.ask, step] at hok
    | succ n =>
      simp only [Interview.ask, step] at hok
      refine interviewLoop_omits name n ts sk _ [] qs [] s (by simp) ?_ v hok
      intro p hp hpname a
      have hpq : p.2 = q := by
        refine nodup_keys_value_unique qs hnd name p.2 q ?_ hmem
        rw [← hpname]
        exact hp
      rw [hpq]
      exact applyTransformations_skip_mono _ _ _ hsk
  · cases fuel with
    | zero =>
      refine ⟨q, ?_, hsk⟩
      simpa [Interview.ask, step, Call.currentQuestion, QuestionABC.questions] using hmem
    | succ n =>
      simp only [Interview.ask, step]
      exact interviewLoop_skipped_persists name n ts sk _ [] qs [] s q (Or.inr hmem) hsk

/-- Witness for C10 at an interview whose first child is pre-skipped. -/
theorem c10_skip_flag_never_reset_witness :
    (step 5 (.ask (.mk .leaf [] true) false []) [.ans (.vint 1)]).question.is_skipped = true ∧
    "a" ∉ (Val.ofDict [("b", Val.vint 1)]).dictKeys ∧
    (∃ q', ("a", q') ∈ (Interview.ask 8 exIvPre [.ans (.vint 1)]).question.questions ∧
      q'.is_skipped = true) := by
  refine ⟨?_, ?_, ?_⟩
  · exact c10_skip_flag_never_reset.2.2.1 5 (.ask (.mk .leaf [] true) false [])
      [.ans (.vint 1)] rfl
  · exact (c10_skip_flag_never_reset.2.2.2 8 [("a", .mk .leaf [] true), ("b", exLeaf)]
      [] false none false [.ans (.vint 1)] "a" (.mk .leaf [] true)
      (List.mem_cons_self _ _) rfl).1 (Val.ofDict [("b", .vint 1)]) rfl (by decide)
  · exact (c10_skip_flag_never_reset.2.2.2 8 [("a", .mk .leaf [] true), ("b", exLeaf)]
      [] false none false [.ans (.vint 1)] "a" (.mk .leaf [] true)
      (List.mem_cons_self _ _) rfl).2

/-- Unfolding of one Tuple-loop iteration in which the produced item meets
the end condition while fewer than `min_items` are collected: the too-few
message is printed and the loop continues with the same items. -/
theorem tupleLoop_unfold_end_reprompt (fuel : Nat) (mkq : List Val → QuestionABC)
    (endc : Val → Bool) (eod eoc uniq : Bool) (mi ma : Nat)
    (ts : List Transformation) (sk : Bool) (ivA : List (String × Val))
    (lst : List Val) (s : List Event) (item : Val)
    (hmax : ¬ ma ≤ lst.length)
    (hout : (step fuel (.askWithValidation (mkq lst) ivA) s).outcome = .ok item)
    (hend : endc item = true) (hmin : lst.length < mi) :
    step (fuel + 1) (.tupleLoop mkq endc eod eoc uniq mi ma ts sk ivA lst) s
      = ⟨(step fuel (.tupleLoop mkq endc eod eoc uniq mi ma ts
            (sk || (step fuel (.askWithValidation (mkq lst) ivA) s).question.is_skipped) ivA lst)
            (step fuel (.askWithValidation (mkq lst) ivA) s).stream).outcome,
          (step fuel (.tupleLoop mkq endc eod eoc uniq mi ma ts
            (sk || (step fuel (.askWithValidation (mkq lst) ivA) s).question.is_skipped) ivA lst)
            (step fuel (.askWithValidation (mkq lst) ivA) s).stream).question,
          (step fuel (.tupleLoop mkq endc eod eoc uniq mi ma ts
            (sk || (step fuel (.askWithValidation (mkq lst) ivA) s).question.is_skipped) ivA lst)
            (step fuel (.askWithValidation (mkq lst) ivA) s).stream).stream,
          (step fuel (.askWithValidation (mkq lst) ivA) s).prints
            ++ [get_error_text__too_few_items mi]
            ++ (step fuel (.tupleLoop mkq endc eod eoc uniq mi ma ts
              (sk || (step fuel (.askWithValidation (mkq lst) ivA) s).question.is_skipped) ivA lst)
              (step fuel (.askWithValidation (mkq lst) ivA) s).stream).prints⟩ := by
  simp only [step, if_neg hmax, hout, hend, if_true, if_pos hmin]

/-- Unfolding of one Tuple-loop iteration in which the produced item neither
meets the end condition nor is rejected as a duplicate: it is appended. -/
theorem tupleLoop_unfold_append (fuel : Nat) (mkq : List Val → QuestionABC)
    (endc : Val → Bool) (eod eoc uniq : Bool) (mi ma : Nat)
    (ts : List Transformation) (sk : Bool) (ivA : List (String × Val))
    (lst : List Val) (s : List Event) (item : Val)
    (hmax : ¬ ma ≤ lst.length)
    (hout : (step fuel (.askWithValidation (mkq lst) ivA) s).outcome = .ok item)
    (hend : endc item = false) (huniq : ¬ (uniq ∧ item ∈ lst)) :
    step (fuel + 1) (.tupleLoop mkq endc eod eoc uniq mi ma ts sk ivA lst) s
      = ⟨(step fuel (.tupleLoop mkq endc eod eoc uniq mi ma ts
            (sk || (step fuel (.askWithValidation (mkq lst) ivA) s).question.is_skipped) ivA
            (lst ++ [item]))
            (step fuel (.askWithValidation (mkq lst) ivA) s).stream).outcome,
          (step fuel (.tupleLoop mkq endc eod eoc uniq mi ma ts
            (sk || (step fuel (.askWithValidation (mkq lst) ivA) s).question.is_skipped) ivA
            (lst ++ [item]))
            (step fuel (.askWithValidation (mkq lst) ivA) s).stream).question,
          (step fuel (.tupleLoop mkq endc eod eoc uniq mi ma ts
            (sk || (step fuel (.askWithValidation (mkq lst) ivA) s).question.is_skipped) ivA
            (lst ++ [item]))
            (step fuel (.askWithValidation (mkq lst) ivA) s).stream).stream,
          (step fuel (.askWithValidation (mkq lst) ivA) s).prints
            ++ (step fuel (.tupleLoop mkq endc eod eoc uniq mi ma ts
              (sk || (step fuel (.askWithValidation (mkq lst) ivA) s).question.is_skipped) ivA
              (lst ++ [item]))
              (step fuel (.askWithValidation (mkq lst) ivA) s).stream).prints⟩ := by
  simp only [step, if_neg hmax, hout, hend]
  rw [if_neg (by simp [hend]), if_neg huniq]

/-- Unfolding of one Tuple-loop iteration in which the item ask raised a
Ctrl+D-channel `UserExitException`, absorbed by `end_on_ctrl_d=True`, while
fewer than `min_items` are collected: the too-few message is printed and the
loop continues. -/
theorem tupleLoop_unfold_absorb_continue (fuel : Nat) (mkq : List Val → QuestionABC)
    (endc : Val → Bool) (eoc uniq : Bool) (mi ma : Nat)
    (ts : List Transformation) (sk : Bool) (ivA : List (String × Val))
    (lst : List Val) (s : List Event)
    (hmax : ¬ ma ≤ lst.length)
    (hout : (step fuel (.askWithValidation (mkq lst) ivA) s).outcome = .exc (.userExit .ctrlD))
    (hmin : lst.length < mi) :
    step (fuel + 1) (.tupleLoop mkq endc true eoc uniq mi ma ts sk ivA lst) s
      = ⟨(step fuel (.tupleLoop mkq endc true eoc uniq mi ma ts sk ivA lst)
            (step fuel (.askWithValidation (mkq lst) ivA) s).stream).outcome,
          (step fuel (.tupleLoop mkq endc true eoc uniq mi ma ts sk ivA lst)
            (step fuel (.askWithValidation (mkq lst) ivA) s).stream).question,
          (step fuel (.tupleLoop mkq endc true eoc uniq mi ma ts sk ivA lst)
            (step fuel (.askWithValidation (mkq lst) ivA) s).stream).stream,
          (step fuel (.askWithValidation (mkq lst) ivA) s).prints
            ++ [get_error_text__too_few_items mi]
            ++ (step fuel (.tupleLoop mkq endc true eoc uniq mi ma ts sk ivA lst)
              (step fuel (.askWithValidation (mkq lst) ivA) s).stream).prints⟩ := by
  simp only [step, if_neg hmax, hout]
  rw [if_pos (by simp), if_pos hmin]

/-- With fewer than two items collected and the input exhausted, the C3
Tuple loop keeps printing the too-few message and re-asking forever: every
fuel runs out. -/
theorem c3_loop_empty_stream : ∀ (fuel : Nat) (lst : List Val) (sk : Bool),
    lst.length < 2 →
    (step fuel (.tupleLoop (fun _ => exLeaf) (fun v => v == Val.vint 0) true false false 2
      2147483647 [] sk [] lst) []).outcome = .fuelOut := by
  intro fuel
  induction fuel with
  | zero => intro lst sk h; simp [step]
  | succ n ih =>
    intro lst sk h
    have hmax : ¬ (2147483647 ≤ lst.length) := by omega
    rcases n with _ | _ | m
    · simp [step, hmax]
    · simp [step, hmax]
    · have hr : step (m + 2) (.askWithValidation exLeaf []) []
          = ⟨.exc (.userExit .ctrlD), exLeaf, [], []⟩ := rfl
      rw [tupleLoop_unfold_absorb_continue (m + 2) (fun _ => exLeaf)
        (fun v => v == Val.vint 0) false false 2 2147483647 [] sk [] lst []
        hmax (by rw [hr]) h]
      rw [hr]
      exact ih lst sk h

/-- Feeding only the answer 0 to the C3 Tuple loop re-prompts (the item
meets the end condition but only zero items were collected) and then loops
on the exhausted input forever. -/
theorem c3_loop_single_zero : ∀ (fuel : Nat) (lst : List Val) (sk : Bool),
    lst.length < 2 →
    (step fuel (.tupleLoop (fun _ => exLeaf) (fun v => v == Val.vint 0) true false false 2
      2147483647 [] sk [] lst) [.ans (.vint 0)]).outcome = .fuelOut := by
  intro fuel lst sk h
  have hmax : ¬ (2147483647 ≤ lst.length) := by omega
  rcases fuel with _ | _ | _ | m
  · simp [step]
  · simp [step, hmax]
  · simp [step, hmax]
  · have hr : step (m + 2) (.askWithValidation exLeaf []) [.ans (.vint 0)]
        = ⟨.ok (.vint 0), exLeaf, [], []⟩ := rfl
    rw [tupleLoop_unfold_end_reprompt (m + 2) (fun _ => exLeaf)
      (fun v => v == Val.vint 0) true false false 2 2147483647 [] sk [] lst [.ans (.vint 0)]
      (.vint 0) hmax (by rw [hr]) rfl h]
    rw [hr]
    exact c3_loop_empty_stream (m + 2) lst _ h

/-- Feeding the answers 3 and then 0 to the C3 Tuple loop collects the 3,
then hits the end condition with only one item (below `min_items=2`),
re-prompts, and loops on the exhausted input forever. -/
theorem c3_loop_three_zero : ∀ (fuel : Nat) (sk : Bool),
    (step fuel (.tupleLoop (fun _ => exLeaf) (fun v => v == Val.vint 0) true false false 2
      2147483647 [] sk [] []) [.ans (.vint 3), .ans (.vint 0)]).outcome = .fuelOut := by
  intro fuel sk
  have hmax : ¬ (2147483647 ≤ ([] : List Val).length) := by simp
  rcases fuel with _ | _ | _ | m
  · simp [step]
  · simp [step, hmax]
  · simp [step, hmax]
  · have hr : step (m + 2) (.askWithValidation exLeaf []) [.ans (.vint 3), .ans (.vint 0)]
        = ⟨.ok (.vint 3), exLeaf, [.ans (.vint 0)], []⟩ := rfl
    rw [tupleLoop_unfold_append (m + 2) (fun _ => exLeaf)
      (fun v => v == Val.vint 0) true false false 2 2147483647 [] sk [] [] 
      [.ans (.vint 3), .ans (.vint 0)] (.vint 3) hmax (by rw [hr]) rfl
      (by rintro ⟨hc, -⟩; cases hc)]
    rw [hr]
    exact c3_loop_single_zero (m + 2) ([] ++ [.vint 3]) _ (by simp)

/-- C3 amended: with `min_items=2` and end condition "item equals 0",
feeding only 0 emits the too-few-items message and re-prompts instead of
terminating (no amount of fuel completes the run); feeding 3 then 0 likewise
re-prompts — only one item is collected, still below `min_items` — and does
not terminate, contrary to the original claim that it returns (3,); feeding
3, 7, then 0 terminates and returns (3, 7). -/
theorem c3_min_items_reprompt :
    (∀ fuel, (step fuel (.ask exMinTuple false []) [.ans (.vint 0)]).outcome = .fuelOut) ∧
    get_error_text__too_few_items 2
      ∈ (step 10 (.ask exMinTuple false []) [.ans (.vint 0)]).prints ∧
    (∀ fuel, (step fuel (.ask exMinTuple false [])
      [.ans (.vint 3), .ans (.vint 0)]).outcome = .fuelOut) ∧
    get_error_text__too_few_items 2
      ∈ (step 20 (.ask exMinTuple false []) [.ans (.vint 3), .ans (.vint 0)]).prints ∧
    (step 20 (.ask exMinTuple false []) [.ans (.vint 3), .ans (.vint 7), .ans (.vint 0)]).outcome
      = .ok (Val.ofList [.vint 3, .vint 7]) := by
  refine ⟨?_, by decide, ?_, by decide, rfl⟩
  · intro fuel
    rcases fuel with _ | n
    · rfl
    · exact c3_loop_single_zero n [] false (by simp)
  · intro fuel
    rcases fuel with _ | n
    · rfl
    · exact c3_loop_three_zero n false

/-- C3 counterexample: at the concrete input 3 then 0 the run is still
re-prompting after 20 interpreter steps (and, by `c3_min_items_reprompt`,
after any number of steps); in particular it has not returned (3,). -/
theorem c3_counterexample :
    (step 20 (.ask exMinTuple false []) [.ans (.vint 3), .ans (.vint 0)]).outcome
      ≠ .ok (Val.ofList [.vint 3]) := by
  decide
